import Mathlib

/-!
A shallow embedding of the log-stream normalizer and interactive viewer of
UNO-CLI (the Go package `logs`: parseLogLine, parseUniversalLog,
normalizeLevel, isErrorLog, wrapText, the bubbletea model's Update and View
scroll logic, and streamLogs), together with theorems settling the
specification claims about that code.

Modelling conventions:
* Go strings are modelled as `List Char`.
* Go machine integers are modelled as `Int`; none of the embedded arithmetic
  comes anywhere near overflow.
* `strings.ToUpper`, `strings.ToLower` and `strings.TrimSpace` are modelled
  on their ASCII fragment (the only fragment the embedded code compares
  against); `unicode.IsSpace` is modelled by its ASCII/Latin-1 members.
* The regular expressions of parseUniversalLog are translated one by one
  into deterministic matchers that implement the Go (RE2 leftmost-first,
  greedy) semantics of each concrete pattern; alternation points that the
  patterns actually contain (optional fractional seconds, the optional
  Docker timestamp of the bracket pattern) are implemented with explicit
  orElse in the preference order of the regex engine.
* Go slicing `xs[a:b]` panics unless `0 <= a <= b <= len xs`; the View
  slice is therefore modelled as an `Option`, `none` standing for a panic.
-/

set_option maxRecDepth 4000

namespace UnoLogs

/-- ASCII uppercase table of Go `strings.ToUpper` (identity outside a-z). -/
def upChar : Char → Char
  | 'a' => 'A' | 'b' => 'B' | 'c' => 'C' | 'd' => 'D' | 'e' => 'E' | 'f' => 'F'
  | 'g' => 'G' | 'h' => 'H' | 'i' => 'I' | 'j' => 'J' | 'k' => 'K' | 'l' => 'L'
  | 'm' => 'M' | 'n' => 'N' | 'o' => 'O' | 'p' => 'P' | 'q' => 'Q' | 'r' => 'R'
  | 's' => 'S' | 't' => 'T' | 'u' => 'U' | 'v' => 'V' | 'w' => 'W' | 'x' => 'X'
  | 'y' => 'Y' | 'z' => 'Z'
  | c => c

/-- ASCII lowercase table of Go `strings.ToLower` (identity outside A-Z). -/
def lowChar : Char → Char
  | 'A' => 'a' | 'B' => 'b' | 'C' => 'c' | 'D' => 'd' | 'E' => 'e' | 'F' => 'f'
  | 'G' => 'g' | 'H' => 'h' | 'I' => 'i' | 'J' => 'j' | 'K' => 'k' | 'L' => 'l'
  | 'M' => 'm' | 'N' => 'n' | 'O' => 'o' | 'P' => 'p' | 'Q' => 'q' | 'R' => 'r'
  | 'S' => 's' | 'T' => 't' | 'U' => 'u' | 'V' => 'v' | 'W' => 'w' | 'X' => 'x'
  | 'Y' => 'y' | 'Z' => 'z'
  | c => c

/-- Go `strings.ToUpper` on a whole string (ASCII fragment). -/
def toUpperL (l : List Char) : List Char := l.map upChar

/-- Go `strings.ToLower` on a whole string (ASCII fragment). -/
def toLowerL (l : List Char) : List Char := l.map lowChar

/-- Go `unicode.IsSpace` (ASCII and Latin-1 members), used by
`strings.TrimSpace` and `strings.Fields`. -/
def goIsSpace (c : Char) : Bool :=
  c = ' ' ∨ c = '\t' ∨ c = '\n' ∨ c = '\x0b' ∨ c = '\x0c' ∨ c = '\r' ∨
  c = '\x85' ∨ c = '\xa0'

/-- The character class `\s` of Go regexp (RE2): `[\t\n\x0c\r ]`. -/
def reSpace (c : Char) : Bool :=
  c = '\t' ∨ c = '\n' ∨ c = '\x0c' ∨ c = '\r' ∨ c = ' '

/-- The character class `\w` of Go regexp: `[0-9A-Za-z_]`. -/
def isWordChar (c : Char) : Bool := c.isAlphanum ∨ c = '_'

/-- Go `strings.TrimSpace`: drop whitespace from both ends. -/
def trimSpace (l : List Char) : List Char :=
  (((l.dropWhile goIsSpace).reverse.dropWhile goIsSpace)).reverse

/-- Go `strings.Contains sub s` scans every position for `sub`. -/
def containsSub (s sub : List Char) : Bool :=
  if sub.isPrefixOf s then true
  else
    match s with
    | [] => false
    | _ :: t => containsSub t sub

/-- Accumulator worker of `sFields`. -/
def fieldsAux : List Char → List Char → List (List Char)
  | [], acc => if acc = [] then [] else [acc.reverse]
  | c :: rest, acc =>
    if goIsSpace c then
      if acc = [] then fieldsAux rest [] else acc.reverse :: fieldsAux rest []
    else fieldsAux rest (c :: acc)

/-- Go `strings.Fields`: split around runs of whitespace. -/
def sFields (l : List Char) : List (List Char) := fieldsAux l []

/-- Go `strings.Replace s old new 1` for `new = ""`: remove the first
occurrence of `old`. -/
def replaceFirst : List Char → List Char → List Char
  | s, t =>
    if t.isPrefixOf s then s.drop t.length
    else
      match s with
      | [] => []
      | c :: r => c :: replaceFirst r t

/-- Words joined by single spaces (`strings.Join ws " "`), the normalized
text that the word-wrap claim speaks about. -/
def intercalateSp : List (List Char) → List Char
  | [] => []
  | [w] => w
  | w :: ws => w ++ ' ' :: intercalateSp ws

/-- The struct `LogEntry` of the `logs` package.  `Time`, `Level`,
`Message`, `JobID`, `Error` carry the json tags `time`, `level`, `msg`,
`jobID`, `error`; `Raw` is untagged. -/
structure LogEntry where
  Time : List Char := []
  Level : List Char := []
  Message : List Char := []
  JobID : List Char := []
  Error : List Char := []
  Raw : List Char := []
deriving DecidableEq, Repr

/-- The switch body of `normalizeLevel`, applied to the already
uppercased and trimmed level token. -/
def normCore (l : List Char) : List Char :=
  if l = "WARNING".data ∨ l = "WARN".data then "WARN".data
  else if l = "ERR".data then "ERROR".data
  else if l = "INFORMATION".data then "INFO".data
  else if l = "DBG".data then "DEBUG".data
  else if l = "LOG".data then "INFO".data
  else if l = "STATEMENT".data ∨ l = "STMT".data then "INFO".data
  else if l = "NOTICE".data then "INFO".data
  else if l = "FATAL".data ∨ l = "PANIC".data then "ERROR".data
  else if l = [] then "INFO".data
  else l

/-- Go `normalizeLevel`: uppercase the trimmed token, then canonicalize. -/
def normalizeLevel (level : List Char) : List Char :=
  normCore (toUpperL (trimSpace level))

/-- The fixed keyword list of `isErrorLog`. -/
def errorKeywords : List (List Char) :=
  ["error".data, "exception".data, "failed".data, "failure".data,
   "panic".data, "fatal".data,
   "ошибка".data, "исключение".data, "сбой".data, "критическая ошибка".data,
   "stack trace".data, "traceback".data, "crash".data,
   "segmentation fault".data,
   "timeout".data, "connection refused".data, "permission denied".data,
   "not found".data, "already exists".data, "invalid".data, "malformed".data]

/-- Go `isErrorLog`: level equal to ERROR after uppercasing, or a non-empty
`Error` field, or an error keyword in the lowercased message, or (for
records with non-empty `Raw`) an error keyword in the lowercased raw
line. -/
def isErrorLog (entry : LogEntry) : Bool :=
  if toUpperL entry.Level = "ERROR".data then true
  else if entry.Error ≠ [] then true
  else
    let message := toLowerL entry.Message
    if errorKeywords.any (fun k => containsSub message k) then true
    else if entry.Raw ≠ [] then
      errorKeywords.any (fun k => containsSub (toLowerL entry.Raw) k)
    else false

/-! Deterministic matchers for the regular expressions of
`parseUniversalLog`.  Each matcher consumes from the front of the line and
returns the rest (plus captures); `none` means the regex does not match. -/

/-- Match a literal string, returning the rest. -/
def pLit : List Char → List Char → Option (List Char)
  | [], s => some s
  | c :: cs, d :: s => if d = c then pLit cs s else none
  | _ :: _, [] => none

/-- Match exactly `n` digits (`\d`), returning them and the rest. -/
def pDigitsN : Nat → List Char → Option (List Char × List Char)
  | 0, s => some ([], s)
  | n + 1, c :: s =>
    if c.isDigit then (pDigitsN n s).bind (fun p => some (c :: p.1, p.2))
    else none
  | _ + 1, [] => none

/-- Match one or more characters of a class, greedily (`\d+`, `\w+`). -/
def pTake1While (p : Char → Bool) (s : List Char) :
    Option (List Char × List Char) :=
  let t := s.takeWhile p
  if t = [] then none else some (t, s.dropWhile p)

/-- Match `\s+` (one or more regex whitespace), returning the rest. -/
def pSpaces1 (s : List Char) : Option (List Char) :=
  if (s.takeWhile reSpace) = [] then none else some (s.dropWhile reSpace)

/-- Run a rest-only matcher and also return the consumed prefix (the
capture group around it). -/
def withCapture (p : List Char → Option (List Char)) (s : List Char) :
    Option (List Char × List Char) :=
  (p s).map (fun r => (s.take (s.length - r.length), r))

/-- Match `(?:\.\d+)?` when the regex continues with a non-digit literal
(such as `Z`): if a dot follows, the group must consume it together with at
least one digit, else the whole match fails; otherwise match nothing. -/
def pOptFrac : List Char → Option (List Char)
  | '.' :: s => (pTake1While Char.isDigit s).map (fun p => p.2)
  | s => some s

/-- Match `(?:\.\d+)?` at the end of an unanchored alternative: take the
dot and digits greedily if present, else match nothing. -/
def pOptFracEnd : List Char → List Char
  | '.' :: s =>
    match pTake1While Char.isDigit s with
    | some p => p.2
    | none => '.' :: s
  | s => s

/-- Core of the Docker timestamp
`\d{4}-\d{2}-\d{2}T\d{2}:\d{2}:\d{2}(?:\.\d+)?Z`, returning the rest. -/
def pDockerTsCore (s : List Char) : Option (List Char) := do
  let p ← pDigitsN 4 s
  let r ← pLit ['-'] p.2
  let p ← pDigitsN 2 r
  let r ← pLit ['-'] p.2
  let p ← pDigitsN 2 r
  let r ← pLit ['T'] p.2
  let p ← pDigitsN 2 r
  let r ← pLit [':'] p.2
  let p ← pDigitsN 2 r
  let r ← pLit [':'] p.2
  let p ← pDigitsN 2 r
  let r ← pOptFrac p.2
  pLit ['Z'] r

/-- Captured Docker timestamp. -/
def pDockerTs (s : List Char) : Option (List Char × List Char) :=
  withCapture pDockerTsCore s

/-- Core of the PostgreSQL date-time
`\d{4}-\d{2}-\d{2} \d{2}:\d{2}:\d{2}\.\d{3}`, returning the rest. -/
def pPgDateTimeCore (s : List Char) : Option (List Char) := do
  let p ← pDigitsN 4 s
  let r ← pLit ['-'] p.2
  let p ← pDigitsN 2 r
  let r ← pLit ['-'] p.2
  let p ← pDigitsN 2 r
  let r ← pLit [' '] p.2
  let p ← pDigitsN 2 r
  let r ← pLit [':'] p.2
  let p ← pDigitsN 2 r
  let r ← pLit [':'] p.2
  let p ← pDigitsN 2 r
  let r ← pLit ['.'] p.2
  let p ← pDigitsN 3 r
  pure p.2

/-- Match `\s*(.+)$` (Go `$` is end of text, `.` excludes the newline):
greedily skip whitespace; the captured tail is the rest if non-empty,
otherwise the regex backtracks one whitespace character.  Fails when the
would-be capture contains a newline. -/
def pTailMsg (s : List Char) : Option (List Char) :=
  let sp := s.takeWhile reSpace
  let rest := s.dropWhile reSpace
  if rest = [] then
    match sp.getLast? with
    | some c => if c = '\n' then none else some [c]
    | none => none
  else if rest.any (fun c => c = '\n') then none
  else some rest

/-- Match `\s+(.+)$`: one whitespace character, then `\s*(.+)$`. -/
def pSpacesTailMsg : List Char → Option (List Char)
  | c :: r => if reSpace c then pTailMsg r else none
  | [] => none

/-- Pattern 1 parts (`ts`, `pid`, `level`, `message`):
`^(dockerTs)\s+(pgDateTime) GMT \[(\d+)\] (\w+):\s*(.+)$`. -/
def pat1Parts (s : List Char) :
    Option (List Char × List Char × List Char × List Char) := do
  let tsr ← pDockerTs s
  let r ← pSpaces1 tsr.2
  let r ← pPgDateTimeCore r
  let r ← pLit " GMT [".data r
  let pidr ← pTake1While Char.isDigit r
  let r ← pLit "] ".data pidr.2
  let lvlr ← pTake1While isWordChar r
  let r ← pLit [':'] lvlr.2
  let msg ← pTailMsg r
  pure (tsr.1, pidr.1, lvlr.1, msg)

/-- Pattern 1 record: Time, Level, Message, JobID from the groups. -/
def pat1 (s : List Char) : Option LogEntry :=
  (pat1Parts s).map (fun q =>
    { Time := q.1, Level := q.2.2.1, Message := q.2.2.2, JobID := q.2.1 })

/-- Pattern 2 parts: as pattern 1 but with the literal level `STATEMENT`. -/
def pat2Parts (s : List Char) :
    Option (List Char × List Char × List Char) := do
  let tsr ← pDockerTs s
  let r ← pSpaces1 tsr.2
  let r ← pPgDateTimeCore r
  let r ← pLit " GMT [".data r
  let pidr ← pTake1While Char.isDigit r
  let r ← pLit "] ".data pidr.2
  let r ← pLit "STATEMENT".data r
  let r ← pLit [':'] r
  let msg ← pTailMsg r
  pure (tsr.1, pidr.1, msg)

/-- Pattern 2 record: STATEMENT mapped to INFO, message prefixed `SQL: `. -/
def pat2 (s : List Char) : Option LogEntry :=
  (pat2Parts s).map (fun q =>
    { Time := q.1, Level := "INFO".data, Message := "SQL: ".data ++ q.2.2,
      JobID := q.2.1 })

/-- Pattern 3 parts: `^(pgDateTime) GMT \[(\d+)\] (\w+):\s*(.+)$`. -/
def pat3Parts (s : List Char) :
    Option (List Char × List Char × List Char × List Char) := do
  let tsr ← withCapture pPgDateTimeCore s
  let r ← pLit " GMT [".data tsr.2
  let pidr ← pTake1While Char.isDigit r
  let r ← pLit "] ".data pidr.2
  let lvlr ← pTake1While isWordChar r
  let r ← pLit [':'] lvlr.2
  let msg ← pTailMsg r
  pure (tsr.1, pidr.1, lvlr.1, msg)

/-- Pattern 3 record. -/
def pat3 (s : List Char) : Option LogEntry :=
  (pat3Parts s).map (fun q =>
    { Time := q.1, Level := q.2.2.1, Message := q.2.2.2, JobID := q.2.1 })

/-- Core of the short time with two fractional digits
`\d{2}:\d{2}:\d{2}\.\d{2}`. -/
def pShortTime2Core (s : List Char) : Option (List Char) := do
  let p ← pDigitsN 2 s
  let r ← pLit [':'] p.2
  let p ← pDigitsN 2 r
  let r ← pLit [':'] p.2
  let p ← pDigitsN 2 r
  let r ← pLit ['.'] p.2
  let p ← pDigitsN 2 r
  pure p.2

/-- Pattern 4 parts:
`^(dockerTs)\s+(\w+)\s+(\d{2}:\d{2}:\d{2}\.\d{2})\s+(\w+)\s+(.+)$`. -/
def pat4Parts (s : List Char) :
    Option (List Char × List Char × List Char × List Char) := do
  let tsr ← pDockerTs s
  let r ← pSpaces1 tsr.2
  let jobr ← pTake1While isWordChar r
  let r ← pSpaces1 jobr.2
  let r ← pShortTime2Core r
  let r2 ← pSpaces1 r
  let lvlr ← pTake1While isWordChar r2
  let msg ← pSpacesTailMsg lvlr.2
  pure (tsr.1, jobr.1, lvlr.1, msg)

/-- Pattern 4 record: Time group 1, JobID group 2, Level group 4,
Message group 5. -/
def pat4 (s : List Char) : Option LogEntry :=
  (pat4Parts s).map (fun q =>
    { Time := q.1, Level := q.2.2.1, Message := q.2.2.2, JobID := q.2.1 })

/-- Pattern 5 parts: `^(\w+)\s+(\d{2}:\d{2}:\d{2}\.\d{2})\s+(\w+)\s+(.+)$`. -/
def pat5Parts (s : List Char) :
    Option (List Char × List Char × List Char × List Char) := do
  let jobr ← pTake1While isWordChar s
  let r ← pSpaces1 jobr.2
  let tsr ← withCapture pShortTime2Core r
  let r2 ← pSpaces1 tsr.2
  let lvlr ← pTake1While isWordChar r2
  let msg ← pSpacesTailMsg lvlr.2
  pure (jobr.1, tsr.1, lvlr.1, msg)

/-- Pattern 5 record: Time group 2, JobID group 1, Level group 3,
Message group 4. -/
def pat5 (s : List Char) : Option LogEntry :=
  (pat5Parts s).map (fun q =>
    { Time := q.2.1, Level := q.2.2.1, Message := q.2.2.2, JobID := q.1 })

/-- Pattern 6: a bare Docker timestamp, `^(dockerTs)$`. -/
def pat6Parts (s : List Char) : Option (List Char) := do
  let tsr ← pDockerTs s
  if tsr.2 = [] then pure tsr.1 else none

/-- Pattern 6 record: empty message, level INFO. -/
def pat6 (s : List Char) : Option LogEntry :=
  (pat6Parts s).map (fun ts =>
    { Time := ts, Level := "INFO".data, Message := [] })

/-- Shared tail of pattern 7: `\s*\[(\w+)\]\s*(.+)$`. -/
def pBracketRest (s : List Char) : Option (List Char × List Char) := do
  let r ← pLit ['['] (s.dropWhile reSpace)
  let lvlr ← pTake1While isWordChar r
  let r ← pLit [']'] lvlr.2
  let msg ← pTailMsg r
  pure (lvlr.1, msg)

/-- Pattern 7 parts: `^(dockerTs)?\s*\[(\w+)\]\s*(.+)$`; the optional
timestamp group is preferred, with fallback to the empty group. -/
def pat7Parts (s : List Char) :
    Option (List Char × List Char × List Char) :=
  match pDockerTs s with
  | some tsr =>
    match pBracketRest tsr.2 with
    | some q => some (tsr.1, q.1, q.2)
    | none => (pBracketRest s).map (fun q => ([], q.1, q.2))
  | none => (pBracketRest s).map (fun q => ([], q.1, q.2))

/-- Pattern 7 record: Time (possibly empty group), Level, Message. -/
def pat7 (s : List Char) : Option LogEntry :=
  (pat7Parts s).map (fun q =>
    { Time := q.1, Level := q.2.1, Message := q.2.2 })

/-- Core of `\d{2}:\d{2}:\d{2}` (no fraction). -/
def pHmsCore (s : List Char) : Option (List Char) := do
  let p ← pDigitsN 2 s
  let r ← pLit [':'] p.2
  let p ← pDigitsN 2 r
  let r ← pLit [':'] p.2
  let p ← pDigitsN 2 r
  pure p.2

/-- Tail of pattern 8 after the time: `\s+\[(\w+)\]\s+(.+)$`. -/
def pat8Tail (s : List Char) : Option (List Char × List Char) := do
  let r ← pSpaces1 s
  let r ← pLit ['['] r
  let lvlr ← pTake1While isWordChar r
  let r ← pLit [']'] lvlr.2
  let msg ← pSpacesTailMsg r
  pure (lvlr.1, msg)

/-- Pattern 8 parts: `^(\d{2}:\d{2}:\d{2}(?:\.\d{3})?)\s+\[(\w+)\]\s+(.+)$`;
the fractional alternative is preferred (greedy option). -/
def pat8Parts (s : List Char) :
    Option (List Char × List Char × List Char) :=
  let withFrac : Option (List Char × List Char × List Char) := do
    let tsr ← withCapture (fun s => do
      let r ← pHmsCore s
      let r ← pLit ['.'] r
      let p ← pDigitsN 3 r
      pure p.2) s
    let q ← pat8Tail tsr.2
    pure (tsr.1, q.1, q.2)
  withFrac.orElse (fun _ => do
    let tsr ← withCapture pHmsCore s
    let q ← pat8Tail tsr.2
    pure (tsr.1, q.1, q.2))

/-- Pattern 8 record. -/
def pat8 (s : List Char) : Option LogEntry :=
  (pat8Parts s).map (fun q =>
    { Time := q.1, Level := q.2.1, Message := q.2.2 })

/-- The keyword level scan shared by the free-text patterns.  `useExc`
selects whether `exception` is part of the ERROR keywords (it is for
pattern 9 and the final fallback, not for patterns 10, 11 and the
embedded-timestamp fallback). -/
def kwLevel (useExc : Bool) (message : List Char) : List Char :=
  let ml := toLowerL message
  if containsSub ml "error".data ∨ containsSub ml "failed".data ∨
      (useExc ∧ containsSub ml "exception".data) then "ERROR".data
  else if containsSub ml "warn".data then "WARN".data
  else if containsSub ml "debug".data then "DEBUG".data
  else "INFO".data

/-- Pattern 9 parts: `^(dockerTs)\s+(.+)$`. -/
def pat9Parts (s : List Char) : Option (List Char × List Char) := do
  let tsr ← pDockerTs s
  let msg ← pSpacesTailMsg tsr.2
  pure (tsr.1, msg)

/-- Pattern 9 record: keyword-inferred level (with `exception`). -/
def pat9 (s : List Char) : Option LogEntry :=
  (pat9Parts s).map (fun q =>
    { Time := q.1, Level := kwLevel true q.2, Message := q.2 })

/-- Core of `\d{4}-\d{2}-\d{2} \d{2}:\d{2}:\d{2}` (full date-time,
no fraction). -/
def pFullDTCore (s : List Char) : Option (List Char) := do
  let p ← pDigitsN 4 s
  let r ← pLit ['-'] p.2
  let p ← pDigitsN 2 r
  let r ← pLit ['-'] p.2
  let p ← pDigitsN 2 r
  let r ← pLit [' '] p.2
  pHmsCore r

/-- Pattern 10 parts: `^(\d{4}-\d{2}-\d{2} \d{2}:\d{2}:\d{2})\s+(.+)$`. -/
def pat10Parts (s : List Char) : Option (List Char × List Char) := do
  let tsr ← withCapture pFullDTCore s
  let msg ← pSpacesTailMsg tsr.2
  pure (tsr.1, msg)

/-- Pattern 10 record: keyword-inferred level (without `exception`). -/
def pat10 (s : List Char) : Option LogEntry :=
  (pat10Parts s).map (fun q =>
    { Time := q.1, Level := kwLevel false q.2, Message := q.2 })

/-- Pattern 11 parts: `^(\d{2}:\d{2}:\d{2}(?:\.\d{2,3})?)\s+(.+)$`; the
greedy quantifier prefers three fractional digits, then two, then none. -/
def pat11Parts (s : List Char) : Option (List Char × List Char) :=
  let withFracN : Nat → Option (List Char × List Char) := fun n => do
    let tsr ← withCapture (fun s => do
      let r ← pHmsCore s
      let r ← pLit ['.'] r
      let p ← pDigitsN n r
      pure p.2) s
    let msg ← pSpacesTailMsg tsr.2
    pure (tsr.1, msg)
  (withFracN 3).orElse (fun _ => (withFracN 2).orElse (fun _ => do
    let tsr ← withCapture pHmsCore s
    let msg ← pSpacesTailMsg tsr.2
    pure (tsr.1, msg)))

/-- Pattern 11 record: keyword-inferred level (without `exception`). -/
def pat11 (s : List Char) : Option LogEntry :=
  (pat11Parts s).map (fun q =>
    { Time := q.1, Level := kwLevel false q.2, Message := q.2 })

/-- The ordered fallback chain: the first matching pattern wins. -/
def tryPatterns (l : List Char) : Option LogEntry :=
  (pat1 l).orElse fun _ =>
  (pat2 l).orElse fun _ =>
  (pat3 l).orElse fun _ =>
  (pat4 l).orElse fun _ =>
  (pat5 l).orElse fun _ =>
  (pat6 l).orElse fun _ =>
  (pat7 l).orElse fun _ =>
  (pat8 l).orElse fun _ =>
  (pat9 l).orElse fun _ =>
  (pat10 l).orElse fun _ =>
  pat11 l

/-- One alternative attempt of the embedded `timePattern`
(`dockerTs|fullDateTime(?:\.\d+)?|\d{2}:\d{2}:\d{2}(?:\.\d+)?`) at the
current position, in the regex alternation order; returns the matched
text. -/
def tpAt (s : List Char) : Option (List Char) :=
  match pDockerTs s with
  | some p => some p.1
  | none =>
    match withCapture (fun s => (pFullDTCore s).map pOptFracEnd) s with
    | some p => some p.1
    | none =>
      match withCapture (fun s => (pHmsCore s).map pOptFracEnd) s with
      | some p => some p.1
      | none => none

/-- Leftmost match of the embedded `timePattern` anywhere in the line
(`FindStringSubmatch` on an unanchored pattern). -/
def findTimeSub : List Char → Option (List Char)
  | [] => none
  | c :: t =>
    match tpAt (c :: t) with
    | some m => some m
    | none => findTimeSub t

/-- Go `parseUniversalLog`: trim, try the eleven anchored patterns in
order, then look for an embedded timestamp, then fall back to the whole
line as the message with a keyword-inferred level. -/
def parseUniversalLog (line : List Char) : LogEntry :=
  let l := trimSpace line
  match tryPatterns l with
  | some e => e
  | none =>
    match findTimeSub l with
    | some t =>
      let message := trimSpace (replaceFirst l t)
      { Time := t, Level := kwLevel false message, Message := message }
    | none => { Level := kwLevel true l, Message := l }

/-! The JSON branch of `parseLogLine`. -/

/-- The left-brace character (0x7b). -/
def braceChar : Char := '\x7b'

/-- The right-brace character (0x7d). -/
def rbraceChar : Char := '\x7d'

/-- Go `strings.Index line "\x7b"` followed by the two slices: the text
before the first left brace and the part from it on; `none` when the line
has no brace. -/
def splitAtBrace (l : List Char) : Option (List Char × List Char) :=
  match l.dropWhile (fun c => ¬ c = braceChar) with
  | [] => none
  | post => some (l.takeWhile (fun c => ¬ c = braceChar), post)

/-- JSON insignificant whitespace. -/
def jsonSkipWs (s : List Char) : List Char :=
  s.dropWhile (fun c => c = ' ' ∨ c = '\t' ∨ c = '\n' ∨ c = '\r')

/-- Worker of the JSON string literal parser: content so far reversed in
`acc`. -/
def jsonStringAux : List Char → List Char → Option (List Char × List Char)
  | [], _ => none
  | '"' :: r, acc => some (acc.reverse, r)
  | '\\' :: c :: r, acc =>
    if c = '"' ∨ c = '\\' ∨ c = '/' then jsonStringAux r (c :: acc)
    else if c = 'n' then jsonStringAux r ('\n' :: acc)
    else if c = 't' then jsonStringAux r ('\t' :: acc)
    else if c = 'r' then jsonStringAux r ('\r' :: acc)
    else none
  | '\\' :: [], _ => none
  | c :: r, acc => jsonStringAux r (c :: acc)

/-- Parse a JSON string literal, returning its content and the rest. -/
def jsonString : List Char → Option (List Char × List Char)
  | '"' :: s => jsonStringAux s []
  | _ => none

/-- Assign a decoded key/value pair to the matching `LogEntry` field the
way `encoding/json` does (tag or field name, case-insensitively); unknown
keys are ignored. -/
def setField (e : LogEntry) (k v : List Char) : LogEntry :=
  let kl := toLowerL k
  if kl = "time".data then { e with Time := v }
  else if kl = "level".data then { e with Level := v }
  else if kl = "msg".data then { e with Message := v }
  else if kl = "jobid".data then { e with JobID := v }
  else if kl = "error".data then { e with Error := v }
  else if kl = "raw".data then { e with Raw := v }
  else e

/-- Member list of a JSON object (fuelled recursion; the fuel is the
length of the input, an upper bound on the member count). -/
def jsonMembers : Nat → List Char → LogEntry → Option LogEntry
  | 0, _, _ => none
  | fuel + 1, s, e =>
    match jsonString (jsonSkipWs s) with
    | none => none
    | some (k, r) =>
      match jsonSkipWs r with
      | ':' :: r2 =>
        match jsonString (jsonSkipWs r2) with
        | none => none
        | some (v, r3) =>
          match jsonSkipWs r3 with
          | ',' :: r4 => jsonMembers fuel r4 (setField e k v)
          | c :: r5 =>
            if c = rbraceChar then
              if jsonSkipWs r5 = [] then some (setField e k v) else none
            else none
          | [] => none
      | _ => none

/-- Modelled fragment of Go `json.Unmarshal` into `LogEntry`: a flat JSON
object whose values are strings (with the common escapes); any other JSON
shape is rejected, standing for the decode errors that make
`parseLogLine` fall back to the universal parser.  Faithful on every
input the theorems below evaluate. -/
def jsonUnmarshal (s : List Char) : Option LogEntry :=
  match jsonSkipWs s with
  | c :: r =>
    if c = braceChar then
      match jsonSkipWs r with
      | d :: r2 =>
        if d = rbraceChar then
          if jsonSkipWs r2 = [] then some {} else none
        else jsonMembers s.length (jsonSkipWs r) {}
      | [] => none
    else none
  | [] => none

/-- The Docker stream-framing control bytes 0x01 (stdout) and 0x02
(stderr). -/
def isFrameByte (c : Char) : Bool := c = '\x01' ∨ c = '\x02'

/-- Strip the 8-byte Docker multiplex header when the line starts with a
framing control byte. -/
def stripDockerHeader (line : List Char) : List Char :=
  if 8 ≤ line.length then
    match line with
    | c :: _ => if isFrameByte c then line.drop 8 else line
    | [] => line
  else line

/-- Go `parseLogLine`: strip the Docker header, trim, try the JSON branch
from the first left brace (adopting the preceding text as the timestamp
when the object has none), else run the universal parser. -/
def parseLogLine (line : List Char) : LogEntry :=
  let l := trimSpace (stripDockerHeader line)
  match splitAtBrace l with
  | some (pre, jsonPart) =>
    match jsonUnmarshal jsonPart with
    | some e =>
      if e.Time = [] ∧ trimSpace pre ≠ [] then { e with Time := trimSpace pre }
      else e
    | none => parseUniversalLog l
  | none => parseUniversalLog l

/-! The word-wrap of the renderer. -/

/-- The hard-split loop of `wrapText`: while the word is longer than the
width, emit a chunk of exactly `width` characters.  Go loops forever when
`width ≤ 0`; that unreachable case (the claims assume a positive width) is
modelled as returning the word unchanged. -/
def hardSplit (word : List Char) (width : Int) : List (List Char) × List Char :=
  if _h : width < (word.length : Int) ∧ 0 < width then
    let p := hardSplit (word.drop width.toNat) width
    (word.take width.toNat :: p.1, p.2)
  else ([], word)
termination_by word.length
decreasing_by
  simp only [List.length_drop]
  omega

/-- One step of the word loop of `wrapText`: state is (emitted lines,
current line). -/
def wrapStep (width : Int) (st : List (List Char) × List Char)
    (word : List Char) : List (List Char) × List Char :=
  let lines := st.1
  let cur := st.2
  if (cur.length : Int) + (word.length : Int) + 1 > width then
    let fl := if cur.length > 0 then (lines ++ [cur], ([] : List Char))
              else (lines, cur)
    if (word.length : Int) > width then
      let p := hardSplit word width
      (fl.1 ++ p.1, fl.2 ++ p.2)
    else (fl.1, fl.2 ++ word)
  else
    if cur.length > 0 then (lines, cur ++ ' ' :: word)
    else (lines, cur ++ word)

/-- Go `wrapText`: texts no longer than the width (and texts without
words) come back unchanged as a single line; otherwise the words are
packed greedily, over-long words hard-split. -/
def wrapText (text : List Char) (width : Int) : List (List Char) :=
  if (text.length : Int) ≤ width then [text]
  else
    let words := sFields text
    if words = [] then [text]
    else
      let st := words.foldl (wrapStep width) ([], [])
      if st.2.length > 0 then st.1 ++ [st.2] else st.1

/-! The bubbletea model: state, events, Update, and the slice computation
of View. -/

/-- The `model` struct of the `logs` package.  `err` records whether an
`errorMsg` was received (the error value itself is irrelevant to the
claims). -/
structure Model where
  logEntries : List LogEntry
  ready : Bool
  err : Bool
  width : Int
  height : Int
  wrapLines : Bool
  showErrorsOnly : Bool
  logCount : Int
  requestedTail : Int
  scrollOffset : Int
deriving DecidableEq, Repr

/-- `initialModel` followed by the `showErrorsOnly` / `requestedTail`
assignments of `RunLogs`; width and height come from the terminal (80×24
when the size cannot be read). -/
def initialModel (width height : Int) (errorsOnly : Bool) (tail : Int) :
    Model :=
  { logEntries := [], ready := false, err := false,
    width := width, height := height, wrapLines := true,
    showErrorsOnly := errorsOnly, logCount := 0, requestedTail := tail,
    scrollOffset := 0 }

/-- The message types delivered to `model.Update`. -/
inductive Msg where
  | windowSize (w h : Int)
  | key (k : String)
  | log (e : LogEntry)
  | errorEvt
  | infoEvt
deriving DecidableEq, Repr

/-- Go `model.Update`: the state transition on one message.  Quit keys
return the state unchanged (the program then terminates). -/
def update (m : Model) : Msg → Model
  | .windowSize w h => { m with width := w, height := h }
  | .key k =>
    if k = "ctrl+c" ∨ k = "q" then m
    else if k = "w" then { m with wrapLines := !m.wrapLines }
    else if k = "e" then { m with showErrorsOnly := !m.showErrorsOnly }
    else if k = "up" ∨ k = "k" then
      if m.scrollOffset > 0 then { m with scrollOffset := m.scrollOffset - 1 }
      else m
    else if k = "down" ∨ k = "j" then
      { m with scrollOffset := m.scrollOffset + 1 }
    else if k = "home" ∨ k = "g" then { m with scrollOffset := 0 }
    else if k = "end" ∨ k = "G" then
      { m with scrollOffset := (m.logEntries.length : Int) - m.height + 5 }
    else if k = "pageup" then
      if m.scrollOffset > m.height then
        { m with scrollOffset := m.scrollOffset - m.height }
      else { m with scrollOffset := 0 }
    else if k = "pagedown" then
      { m with scrollOffset := m.scrollOffset + m.height }
    else m
  | .log e =>
    let m1 := { m with
                ready := true
                logEntries := m.logEntries ++ [e]
                logCount := m.logCount + 1 }
    if (m1.logEntries.length : Int) > m1.height - 3 then
      { m1 with scrollOffset :=
          (m1.logEntries.length : Int) - (m1.height - 3) }
    else m1
  | .errorEvt => { m with err := true, ready := true }
  | .infoEvt => m

/-- Run a sequence of messages from a starting state. -/
def runMsgs (m : Model) (msgs : List Msg) : Model := msgs.foldl update m

/-- The filter loop of `model.View`: the records that survive the
errors-only filter. -/
def visibleEntries (m : Model) : List LogEntry :=
  m.logEntries.filter (fun e => !m.showErrorsOnly || isErrorLog e)

/-- The `start` index that `model.View` computes into `visibleEntries`
(clamped only when it is at least the length). -/
def viewStart (m : Model) : Int :=
  let n : Int := (visibleEntries m).length
  if m.scrollOffset ≥ n then
    if n - 1 < 0 then 0 else n - 1
  else m.scrollOffset

/-- The `end` index that `model.View` computes (from the unclamped
scrollOffset, then clamped to the length). -/
def viewEnd (m : Model) : Int :=
  let n : Int := (visibleEntries m).length
  if m.scrollOffset + (m.height - 3) > n then n
  else m.scrollOffset + (m.height - 3)

/-- The slice `visibleEntries[start:end]` of `model.View`.  Go slicing
panics unless `0 ≤ start ≤ end ≤ len`; a panic is modelled as `none`. -/
def viewSlice (m : Model) : Option (List LogEntry) :=
  let vis := visibleEntries m
  let a := viewStart m
  let b := viewEnd m
  if 0 ≤ a ∧ a ≤ b ∧ b ≤ (vis.length : Int) then
    some ((vis.drop a.toNat).take (b - a).toNat)
  else none

/-! The stream pump. -/

/-- The events `streamLogs` sends to the program. -/
inductive StreamEvent where
  | logM (e : LogEntry)
  | infoM (n : Nat)
  | errorM
deriving DecidableEq, Repr

/-- Whether an event is a record delivery. -/
def isLogEvent : StreamEvent → Bool
  | .logM _ => true
  | _ => false

/-- Whether an event is the error event. -/
def isErrorEvent : StreamEvent → Bool
  | .errorM => true
  | _ => false

/-- The scanner loop of `streamLogs` on an un-cancelled stream: one
classified record per decoded line, then the informational line count,
then the error event exactly when the scanner stopped with a read
error.  (The setup failures before the loop each emit a single error
event and nothing else.) -/
def streamLogsEvents (lines : List (List Char)) (readErr : Bool) :
    List StreamEvent :=
  (lines.map (fun l => StreamEvent.logM (parseLogLine l)))
    ++ [StreamEvent.infoM lines.length]
    ++ (if readErr then [StreamEvent.errorM] else [])

/-! The reconstruction relation for the word-wrap claim: `Glues ls t`
holds when reinserting a single space or nothing between consecutive
lines of `ls` can produce exactly `t`. -/

inductive Glues : List (List Char) → List Char → Prop where
  | one (l : List Char) : Glues [l] l
  | space (l : List Char) {ls : List (List Char)} {t : List Char} :
      Glues ls t → Glues (l :: ls) (l ++ ' ' :: t)
  | tight (l : List Char) {ls : List (List Char)} {t : List Char} :
      Glues ls t → Glues (l :: ls) (l ++ t)

/-! Theorems.  Helper lemmas come first, then one theorem per claim (with
its witness or counterexample where required). -/

/-- C10: the classifier maps the PostgreSQL-with-Docker-timestamp example
line to the record with the Docker timestamp, level ERROR, jobID 100 and
the bare error message, exactly as the specification example states. -/
theorem c10_postgres_example :
    parseLogLine ("2025-07-19T00:26:54.972365013Z 2025-07-19 00:26:54.972 GMT [100] ERROR: relation \"mat_object\" does not exist").data =
      { Time := "2025-07-19T00:26:54.972365013Z".data,
        Level := "ERROR".data,
        Message := ("relation \"mat_object\" does not exist").data,
        JobID := "100".data, Error := [], Raw := [] } := by
  decide

/-- C5 counterexample: on the free-text input
`something bad happened, connection refused` the classifier returns level
INFO, not ERROR as the claim states — `connection refused` is a keyword of
the error filter, not of the classifier's level scan. -/
theorem c5_counterexample :
    (parseLogLine ("something bad happened, connection refused").data).Level
      ≠ "ERROR".data := by
  decide

/-- C5 amended: the classifier returns the whole text as the message with
level INFO (its keyword scan knows only error / failed / exception);
the record is nevertheless error-like for the filter predicate, whose
keyword set contains `connection refused`. -/
theorem c5_amended :
    parseLogLine ("something bad happened, connection refused").data =
      { Time := [], Level := "INFO".data,
        Message := ("something bad happened, connection refused").data,
        JobID := [], Error := [], Raw := [] }
    ∧ isErrorLog
        (parseLogLine ("something bad happened, connection refused").data)
      = true := by
  constructor
  · decide
  · decide

/-- C2 counterexample: from the initial 80×24 model with an empty buffer,
the `end` key sets scrollOffset to −19: a negative value, different from
the claimed `max 0 (visibleCount − (height − 3 + 5)) = 0`. -/
theorem c2_counterexample :
    (update (initialModel 80 24 false 0) (Msg.key "end")).scrollOffset = -19
    ∧ (update (initialModel 80 24 false 0) (Msg.key "end")).scrollOffset < 0
    ∧ (update (initialModel 80 24 false 0) (Msg.key "end")).scrollOffset ≠
        max 0 (((visibleEntries (initialModel 80 24 false 0)).length : Int)
          - ((initialModel 80 24 false 0).height - 3 + 5)) := by
  refine ⟨by decide, by decide, by decide⟩

/-- C2 amended: after an `end`/`G` key event the scroll offset is
`len(logEntries) − height + 5`, computed from the unfiltered buffer length
with no clamping at zero (so it is negative whenever the buffer is shorter
than `height − 5`). -/
theorem c2_amended (m : Model) :
    (update m (Msg.key "end")).scrollOffset =
      (m.logEntries.length : Int) - m.height + 5
    ∧ (update m (Msg.key "G")).scrollOffset =
      (m.logEntries.length : Int) - m.height + 5 := by
  exact ⟨rfl, rfl⟩

/-- C3: from the initial 80×24 model, delivering one record and pressing
`G` is a reachable event sequence after which View's slice start index is
−18 while the model is ready and error-free, so `View` slices
`visibleEntries[-18:...]` and Go raises a slice-bounds panic (modelled as
`none`). -/
theorem c3_view_panic :
    (runMsgs (initialModel 80 24 false 0)
        [Msg.log { Message := "hi".data }, Msg.key "G"]).ready = true
    ∧ (runMsgs (initialModel 80 24 false 0)
        [Msg.log { Message := "hi".data }, Msg.key "G"]).err = false
    ∧ viewStart (runMsgs (initialModel 80 24 false 0)
        [Msg.log { Message := "hi".data }, Msg.key "G"]) = -18
    ∧ viewSlice (runMsgs (initialModel 80 24 false 0)
        [Msg.log { Message := "hi".data }, Msg.key "G"]) = none := by
  refine ⟨by decide, by decide, by decide, by decide⟩

/-- C6 counterexample: with height 10, three records and the filter off,
scrollOffset 1 already truncates the visible range to the last two
records, contradicting the claim that every offset beyond 0 still shows
all three. -/
theorem c6_counterexample :
    viewSlice { initialModel 80 10 false 0 with
        logEntries := [{ Message := "a".data }, { Message := "b".data },
          { Message := "c".data }],
        ready := true, scrollOffset := 1 } =
      some [{ Message := "b".data }, { Message := "c".data }]
    ∧ viewSlice { initialModel 80 10 false 0 with
        logEntries := [{ Message := "a".data }, { Message := "b".data },
          { Message := "c".data }],
        ready := true, scrollOffset := 1 } ≠
      some [{ Message := "a".data }, { Message := "b".data },
        { Message := "c".data }] := by
  refine ⟨by decide, by decide⟩

/-- C6 amended: with height 10, a buffer of three records and the filter
off, the visible slice for scrollOffset `s ≥ 0` is the tail of the buffer
from `min s 2`: the full three records exactly at `s = 0`, the offset
clamped to start `2` (the last record alone) once `s ≥ 3`. -/
theorem c6_amended (e1 e2 e3 : LogEntry) (s : Int) (hs : 0 ≤ s) :
    viewSlice { initialModel 80 10 false 0 with
        logEntries := [e1, e2, e3], ready := true, scrollOffset := s } =
      some ([e1, e2, e3].drop (min s 2).toNat) := by
  rcases lt_or_le s 3 with h3 | h3
  · interval_cases s <;>
      simp [viewSlice, viewStart, viewEnd, visibleEntries, initialModel]
  · have h1 : min s 2 = 2 := min_eq_right (by omega)
    simp only [viewSlice, viewStart, viewEnd, visibleEntries, initialModel,
      h1]
    simp only [Bool.not_false, Bool.true_or, List.filter_cons_of_pos,
      List.filter_nil, List.length_cons, List.length_nil]
    norm_num
    split_ifs <;> first
      | omega
      | rfl
      | simp_all

/-- C6 witness: the amended theorem applied at scrollOffset 5 with three
concrete records. -/
theorem c6_amended_witness :
    (0 : Int) ≤ 5
    ∧ viewSlice { initialModel 80 10 false 0 with
        logEntries := [{ Message := "a".data }, { Message := "b".data },
          { Message := "c".data }],
        ready := true, scrollOffset := 5 } =
      some ([{ Message := "a".data }, { Message := "b".data },
        ({ Message := "c".data } : LogEntry)].drop (min (5 : Int) 2).toNat) :=
  ⟨by decide, c6_amended { Message := "a".data } { Message := "b".data }
    { Message := "c".data } 5 (by decide)⟩

/-- C4 counterexample: the record whose level token is FATAL has canonical
level ERROR, yet the error predicate rejects it when message, error detail
and raw text are empty — `isErrorLog` compares the uppercased raw level,
not the canonical one. -/
theorem c4_counterexample :
    normalizeLevel "FATAL".data = "ERROR".data
    ∧ isErrorLog { Level := "FATAL".data } = false := by
  refine ⟨by decide, by decide⟩

/-- C4 amended: the error predicate returns true for every record whose
uppercased (not canonicalized) level equals ERROR, regardless of the other
fields. -/
theorem c4_amended (e : LogEntry) (h : toUpperL e.Level = "ERROR".data) :
    isErrorLog e = true := by
  simp [isErrorLog, h]

/-- C4 witness: the amended theorem applied to the record with level
`Error`. -/
theorem c4_amended_witness :
    toUpperL ("Error".data) = "ERROR".data
    ∧ isErrorLog { Level := "Error".data } = true :=
  ⟨by decide, c4_amended { Level := "Error".data } (by decide)⟩

/-- Any option-valued orElse that produced a value took it from the first
alternative or, when that was empty, from the second. -/
theorem orElse_some_elim {α : Type} {x : Option α} {f : Unit → Option α}
    {b : α} (h : x.orElse f = some b) :
    x = some b ∨ (x = none ∧ f () = some b) := by
  cases x with
  | some a => left; simpa [Option.orElse] using h
  | none => right; exact ⟨rfl, by simpa [Option.orElse] using h⟩

/-- Pattern 1 never populates the raw field. -/
theorem pat1_raw {s : List Char} {e : LogEntry} (h : pat1 s = some e) :
    e.Raw = [] := by
  simp only [pat1, Option.map_eq_some'] at h
  obtain ⟨a, -, rfl⟩ := h
  rfl

/-- Pattern 2 never populates the raw field. -/
theorem pat2_raw {s : List Char} {e : LogEntry} (h : pat2 s = some e) :
    e.Raw = [] := by
  simp only [pat2, Option.map_eq_some'] at h
  obtain ⟨a, -, rfl⟩ := h
  rfl

/-- Pattern 3 never populates the raw field. -/
theorem pat3_raw {s : List Char} {e : LogEntry} (h : pat3 s = some e) :
    e.Raw = [] := by
  simp only [pat3, Option.map_eq_some'] at h
  obtain ⟨a, -, rfl⟩ := h
  rfl

/-- Pattern 4 never populates the raw field. -/
theorem pat4_raw {s : List Char} {e : LogEntry} (h : pat4 s = some e) :
    e.Raw = [] := by
  simp only [pat4, Option.map_eq_some'] at h
  obtain ⟨a, -, rfl⟩ := h
  rfl

/-- Pattern 5 never populates the raw field. -/
theorem pat5_raw {s : List Char} {e : LogEntry} (h : pat5 s = some e) :
    e.Raw = [] := by
  simp only [pat5, Option.map_eq_some'] at h
  obtain ⟨a, -, rfl⟩ := h
  rfl

/-- Pattern 6 never populates the raw field. -/
theorem pat6_raw {s : List Char} {e : LogEntry} (h : pat6 s = some e) :
    e.Raw = [] := by
  simp only [pat6, Option.map_eq_some'] at h
  obtain ⟨a, -, rfl⟩ := h
  rfl

/-- Pattern 7 never populates the raw field. -/
theorem pat7_raw {s : List Char} {e : LogEntry} (h : pat7 s = some e) :
    e.Raw = [] := by
  simp only [pat7, Option.map_eq_some'] at h
  obtain ⟨a, -, rfl⟩ := h
  rfl

/-- Pattern 8 never populates the raw field. -/
theorem pat8_raw {s : List Char} {e : LogEntry} (h : pat8 s = some e) :
    e.Raw = [] := by
  simp only [pat8, Option.map_eq_some'] at h
  obtain ⟨a, -, rfl⟩ := h
  rfl

/-- Pattern 9 never populates the raw field. -/
theorem pat9_raw {s : List Char} {e : LogEntry} (h : pat9 s = some e) :
    e.Raw = [] := by
  simp only [pat9, Option.map_eq_some'] at h
  obtain ⟨a, -, rfl⟩ := h
  rfl

/-- Pattern 10 never populates the raw field. -/
theorem pat10_raw {s : List Char} {e : LogEntry} (h : pat10 s = some e) :
    e.Raw = [] := by
  simp only [pat10, Option.map_eq_some'] at h
  obtain ⟨a, -, rfl⟩ := h
  rfl

/-- Pattern 11 never populates the raw field. -/
theorem pat11_raw {s : List Char} {e : LogEntry} (h : pat11 s = some e) :
    e.Raw = [] := by
  simp only [pat11, Option.map_eq_some'] at h
  obtain ⟨a, -, rfl⟩ := h
  rfl

/-- No pattern of the fallback chain populates the raw field. -/
theorem tryPatterns_raw {l : List Char} {e : LogEntry}
    (h : tryPatterns l = some e) : e.Raw = [] := by
  unfold tryPatterns at h
  rcases orElse_some_elim h with h | ⟨-, h⟩
  · exact pat1_raw h
  rcases orElse_some_elim h with h | ⟨-, h⟩
  · exact pat2_raw h
  rcases orElse_some_elim h with h | ⟨-, h⟩
  · exact pat3_raw h
  rcases orElse_some_elim h with h | ⟨-, h⟩
  · exact pat4_raw h
  rcases orElse_some_elim h with h | ⟨-, h⟩
  · exact pat5_raw h
  rcases orElse_some_elim h with h | ⟨-, h⟩
  · exact pat6_raw h
  rcases orElse_some_elim h with h | ⟨-, h⟩
  · exact pat7_raw h
  rcases orElse_some_elim h with h | ⟨-, h⟩
  · exact pat8_raw h
  rcases orElse_some_elim h with h | ⟨-, h⟩
  · exact pat9_raw h
  rcases orElse_some_elim h with h | ⟨-, h⟩
  · exact pat10_raw h
  exact pat11_raw h

/-- The universal parser never populates the raw field. -/
theorem parseUniversalLog_raw (l : List Char) :
    (parseUniversalLog l).Raw = [] := by
  cases h1 : tryPatterns (trimSpace l) with
  | some e => simp only [parseUniversalLog, h1]; exact tryPatterns_raw h1
  | none =>
    cases h2 : findTimeSub (trimSpace l) with
    | some t => simp only [parseUniversalLog, h1, h2]
    | none => simp only [parseUniversalLog, h1, h2]

/-- Trimming is a sublist of the original string. -/
theorem trimSpace_sublist (l : List Char) : (trimSpace l).Sublist l := by
  unfold trimSpace
  have h1 : ((l.dropWhile goIsSpace).reverse.dropWhile goIsSpace).Sublist
      (l.dropWhile goIsSpace).reverse := List.dropWhile_sublist _
  have h2 := h1.reverse
  simp only [List.reverse_reverse] at h2
  exact h2.trans (List.dropWhile_sublist _)

/-- The header strip is a sublist of the original line. -/
theorem stripDockerHeader_sublist (l : List Char) :
    (stripDockerHeader l).Sublist l := by
  unfold stripDockerHeader
  split
  · split
    · split
      · exact List.drop_sublist _ _
      · exact List.Sublist.refl _
    · exact List.Sublist.refl _
  · exact List.Sublist.refl _

/-- On lines without a left brace the classifier leaves the raw field
empty. -/
theorem parseLogLine_noBrace_raw {line : List Char}
    (h : braceChar ∉ line) : (parseLogLine line).Raw = [] := by
  have hsub : (trimSpace (stripDockerHeader line)).Sublist line :=
    (trimSpace_sublist _).trans (stripDockerHeader_sublist _)
  have hnb : braceChar ∉ trimSpace (stripDockerHeader line) :=
    fun hm => h (hsub.subset hm)
  have hsplit : splitAtBrace (trimSpace (stripDockerHeader line)) = none := by
    unfold splitAtBrace
    have : (trimSpace (stripDockerHeader line)).dropWhile
        (fun c => ¬ c = braceChar) = [] := by
      rw [List.dropWhile_eq_nil_iff]
      intro x hx
      simp only [decide_not, Bool.not_eq_true', decide_eq_false_iff_not]
      exact fun he => hnb (he ▸ hx)
    rw [this]
  simp only [parseLogLine, hsplit]
  exact parseUniversalLog_raw _

/-- C1 counterexample: on the empty input line the classifier returns a
record whose message and raw fields are both empty, contradicting the
claimed invariant. -/
theorem c1_counterexample :
    (parseLogLine "".data).Message = [] ∧ (parseLogLine "".data).Raw = [] := by
  refine ⟨by decide, by decide⟩

/-- C1 amended: the classifier is total, but the claimed invariant fails:
on every line without a left brace (the non-JSON path) the raw field is
left empty, and for a bare Docker timestamp with empty body the returned
record has empty message and raw (level INFO); the same holds for the
empty line. -/
theorem c1_amended :
    (∀ line : List Char, braceChar ∉ line → (parseLogLine line).Raw = [])
    ∧ (parseLogLine "2025-07-19T00:26:48.124332552Z".data).Message = []
    ∧ (parseLogLine "2025-07-19T00:26:48.124332552Z".data).Raw = []
    ∧ (parseLogLine "2025-07-19T00:26:48.124332552Z".data).Level
        = "INFO".data := by
  refine ⟨fun line h => parseLogLine_noBrace_raw h, by decide, by decide,
    by decide⟩

/-- C1 witness: the universal part of the amended theorem applied to a
concrete brace-free line. -/
theorem c1_amended_witness :
    braceChar ∉ "abc".data ∧ (parseLogLine "abc".data).Raw = [] :=
  ⟨by decide, c1_amended.1 "abc".data (by decide)⟩

/-- C7: when the scanner stops with a read error, the pump emits exactly
one error event, the error event is the last event of the sequence (so no
record follows it, and the only non-record events — the informational line
count and the error — end the sequence), and each decoded line was
delivered exactly once before that (no retry). -/
theorem c7_read_error_events (lines : List (List Char)) :
    ((streamLogsEvents lines true).filter isErrorEvent).length = 1
    ∧ (streamLogsEvents lines true).getLast? = some StreamEvent.errorM
    ∧ ((streamLogsEvents lines true).dropLast.filter isErrorEvent) = []
    ∧ ((streamLogsEvents lines true).filter isLogEvent).length
        = lines.length := by
  refine ⟨?_, ?_, ?_, ?_⟩
  · simp [streamLogsEvents, List.filter_append, List.filter_map,
      isErrorEvent, Function.comp]
  · rw [streamLogsEvents, if_pos rfl, List.getLast?_concat]
  · rw [streamLogsEvents, if_pos rfl, List.dropLast_concat]
    simp [List.filter_append, List.filter_map, isErrorEvent, Function.comp]
  · simp [streamLogsEvents, List.filter_append, List.filter_map,
      isLogEvent, isErrorEvent, Function.comp]


theorem upChar_cases (c : Char) :
    upChar c = c ∨ (c, upChar c) ∈
      ("abcdefghijklmnopqrstuvwxyz".data.zip
        "ABCDEFGHIJKLMNOPQRSTUVWXYZ".data) := by
  unfold upChar
  split <;> first
    | (left; rfl)
    | (right; decide)

theorem upChar_pair_facts :
    ∀ p ∈ ("abcdefghijklmnopqrstuvwxyz".data.zip
        "ABCDEFGHIJKLMNOPQRSTUVWXYZ".data),
      upChar p.2 = p.2 ∧ goIsSpace p.1 = false ∧ goIsSpace p.2 = false := by
  decide

theorem upChar_idem (c : Char) : upChar (upChar c) = upChar c := by
  rcases upChar_cases c with h | h
  · rw [h]; exact h
  · exact (upChar_pair_facts _ h).1

theorem goIsSpace_upChar (c : Char) : goIsSpace (upChar c) = goIsSpace c := by
  rcases upChar_cases c with h | h
  · rw [h]
  · rw [(upChar_pair_facts _ h).2.1, (upChar_pair_facts _ h).2.2]

theorem dropWhile_dropWhile {α : Type} (p : α → Bool) (l : List α) :
    (l.dropWhile p).dropWhile p = l.dropWhile p := by
  induction l with
  | nil => rfl
  | cons c t ih =>
    by_cases h : p c
    · simp [List.dropWhile_cons, h, ih]
    · simp [List.dropWhile_cons, h]

theorem dropWhile_head_false {α : Type} (p : α → Bool) (l : List α) {c : α}
    {t : List α} (h : l.dropWhile p = c :: t) : p c = false := by
  induction l with
  | nil => simp at h
  | cons a l ih =>
    rw [List.dropWhile_cons] at h
    by_cases hp : p a
    · rw [if_pos hp] at h; exact ih h
    · rw [if_neg hp] at h; cases h; simpa using hp

theorem trimSpace_dropWhile (l : List Char) :
    (trimSpace l).dropWhile goIsSpace = trimSpace l := by
  cases h : trimSpace l with
  | nil => rfl
  | cons c t =>
    have h1 : ((l.dropWhile goIsSpace).reverse.dropWhile goIsSpace) <:+
        (l.dropWhile goIsSpace).reverse := List.dropWhile_suffix _
    have h2 : trimSpace l <+: l.dropWhile goIsSpace := by
      have := (List.reverse_prefix).2 h1
      simpa [trimSpace] using this
    obtain ⟨r, hr⟩ := h2
    rw [h] at hr
    have hx : l.dropWhile goIsSpace = c :: (t ++ r) := by
      rw [← hr]; exact (List.cons_append c t r).symm
    have hpc : goIsSpace c = false := dropWhile_head_false goIsSpace l hx
    rw [List.dropWhile_cons, hpc]
    simp

theorem trimSpace_idem (l : List Char) :
    trimSpace (trimSpace l) = trimSpace l := by
  have h1 : (trimSpace l).dropWhile goIsSpace = trimSpace l :=
    trimSpace_dropWhile l
  have h2 : (trimSpace l).reverse.dropWhile goIsSpace =
      (trimSpace l).reverse := by
    rw [trimSpace, List.reverse_reverse]
    exact dropWhile_dropWhile _ _
  calc trimSpace (trimSpace l)
      = (((trimSpace l).dropWhile goIsSpace).reverse.dropWhile
          goIsSpace).reverse := rfl
    _ = ((trimSpace l).reverse.dropWhile goIsSpace).reverse := by rw [h1]
    _ = (trimSpace l).reverse.reverse := by rw [h2]
    _ = trimSpace l := List.reverse_reverse _

theorem toUpperL_trimSpace (l : List Char) :
    toUpperL (trimSpace l) = trimSpace (toUpperL l) := by
  have hfun : (goIsSpace ∘ upChar) = goIsSpace := funext goIsSpace_upChar
  show List.map upChar (trimSpace l) = trimSpace (List.map upChar l)
  unfold trimSpace
  rw [List.dropWhile_map, hfun, ← List.map_reverse, List.dropWhile_map,
    hfun, ← List.map_reverse]

theorem toUpperL_idem (l : List Char) : toUpperL (toUpperL l) = toUpperL l := by
  simp only [toUpperL, List.map_map]
  congr 1
  funext c
  exact upChar_idem c

theorem normCore_fixed {z : List Char} (ht : trimSpace z = z)
    (hu : toUpperL z = z) : normalizeLevel (normCore z) = normCore z := by
  unfold normCore
  split_ifs with h1 h2 h3 h4 h5 h6 h7 h8 h9
  · decide
  · decide
  · decide
  · decide
  · decide
  · decide
  · decide
  · decide
  · decide
  · unfold normalizeLevel
    rw [ht, hu]
    unfold normCore
    rw [if_neg h1, if_neg h2, if_neg h3, if_neg h4, if_neg h5, if_neg h6,
      if_neg h7, if_neg h8, if_neg h9]

/-- C9: level canonicalization is idempotent, and is case-insensitive in
the sense that two level tokens with the same uppercase image normalize
identically. -/
theorem c9_normalize_level :
    (∀ x : List Char, normalizeLevel (normalizeLevel x) = normalizeLevel x)
    ∧ (∀ x y : List Char, toUpperL x = toUpperL y →
        normalizeLevel x = normalizeLevel y) := by
  constructor
  · intro x
    have ht : trimSpace (toUpperL (trimSpace x)) = toUpperL (trimSpace x) := by
      rw [← toUpperL_trimSpace, trimSpace_idem]
    have hu : toUpperL (toUpperL (trimSpace x)) = toUpperL (trimSpace x) :=
      toUpperL_idem _
    exact normCore_fixed ht hu
  · intro x y hxy
    unfold normalizeLevel
    rw [toUpperL_trimSpace, toUpperL_trimSpace, hxy]

/-- C9 witness: idempotence applied at `err` and case-insensitivity
applied to `Error` and `ERROR`. -/
theorem c9_normalize_level_witness :
    normalizeLevel (normalizeLevel "err".data) = normalizeLevel "err".data
    ∧ normalizeLevel "Error".data = normalizeLevel "ERROR".data :=
  ⟨c9_normalize_level.1 ("err".data),
   c9_normalize_level.2 ("Error".data) ("ERROR".data) (by decide)⟩


/-- Hard-split chunks have exactly the width, the remainder is at most
the width, and the pieces concatenate back to the word. -/
theorem hardSplit_spec (word : List Char) (width : Int) (hw : 0 < width) :
    (∀ c ∈ (hardSplit word width).1, (c.length : Int) = width)
    ∧ ((hardSplit word width).2.length : Int) ≤ width
    ∧ (hardSplit word width).1.flatten ++ (hardSplit word width).2 = word := by
  induction word, width using hardSplit.induct with
  | case1 word width h ih =>
    rw [hardSplit, dif_pos h]
    obtain ⟨ih1, ih2, ih3⟩ := ih hw
    refine ⟨?_, ?_, ?_⟩
    · intro c hc
      rcases List.mem_cons.1 hc with rfl | hc
      · rw [List.length_take]
        omega
      · exact ih1 c hc
    · exact ih2
    · simp only [List.flatten_cons]
      rw [List.append_assoc, ih3, List.take_append_drop]
  | case2 word width h =>
    rw [hardSplit, dif_neg h]
    push_neg at h
    refine ⟨by simp, ?_, by simp⟩
    rcases lt_or_le width ((word.length : Int)) with hlt | hle
    · exact absurd (h hlt) (by omega)
    · simpa using hle

/-- A word longer than a positive width produces at least one chunk. -/
theorem hardSplit_ne_nil {word : List Char} {width : Int}
    (h : width < (word.length : Int)) (hw : 0 < width) :
    (hardSplit word width).1 ≠ [] := by
  rw [hardSplit, dif_pos (And.intro h hw)]
  simp

/-- A glued line list is non-empty. -/
theorem glues_ne_nil {ls : List (List Char)} {t : List Char}
    (h : Glues ls t) : ls ≠ [] := by
  cases h <;> simp

/-- Any non-empty line list glues tightly to its concatenation. -/
theorem tight_glues (cs : List (List Char)) (h : cs ≠ []) :
    Glues cs cs.flatten := by
  induction cs with
  | nil => exact absurd rfl h
  | cons c cs ih =>
    cases cs with
    | nil => simpa [List.flatten] using Glues.one c
    | cons b cs2 =>
      have := Glues.tight c (ih (by simp))
      simpa [List.flatten] using this

/-- Gluing distributes over appending with a space at the seam. -/
theorem glues_append_space {ls cs : List (List Char)} {t u : List Char}
    (h1 : Glues ls t) (h2 : Glues cs u) :
    Glues (ls ++ cs) (t ++ ' ' :: u) := by
  induction h1 with
  | one l => exact Glues.space l h2
  | space l h ih =>
    have := Glues.space l ih
    simpa [List.append_assoc] using this
  | tight l h ih =>
    have := Glues.tight l ih
    simpa [List.append_assoc] using this

/-- Generalized form of the extend-last lemma over the derivation index. -/
theorem glues_extend_last_aux {q : List (List Char)} {t : List Char}
    (h : Glues q t) :
    ∀ (ls : List (List Char)) (c d : List Char), q = ls ++ [c] →
      Glues (ls ++ [c ++ d]) (t ++ d) := by
  induction h with
  | one l =>
    intro ls c d hq
    have hls : ls = [] ∧ l = c := by
      cases ls with
      | nil => simpa using hq
      | cons a ls2 => simp at hq
    obtain ⟨rfl, rfl⟩ := hls
    exact Glues.one _
  | space l h' ih =>
    intro ls c d hq
    cases ls with
    | nil =>
      simp only [List.nil_append, List.cons.injEq] at hq
      obtain ⟨rfl, h2⟩ := hq
      subst h2
      cases h'
    | cons a ls2 =>
      simp only [List.cons_append, List.cons.injEq] at hq
      obtain ⟨rfl, h2⟩ := hq
      have := Glues.space l (ih ls2 c d h2)
      simpa [List.append_assoc] using this
  | tight l h' ih =>
    intro ls c d hq
    cases ls with
    | nil =>
      simp only [List.nil_append, List.cons.injEq] at hq
      obtain ⟨rfl, h2⟩ := hq
      subst h2
      cases h'
    | cons a ls2 =>
      simp only [List.cons_append, List.cons.injEq] at hq
      obtain ⟨rfl, h2⟩ := hq
      have := Glues.tight l (ih ls2 c d h2)
      simpa [List.append_assoc] using this



/-- Appending text to the last line appends it to every glued text. -/
theorem glues_extend_last {ls : List (List Char)} {c t : List Char}
    (h : Glues (ls ++ [c]) t) (d : List Char) :
    Glues (ls ++ [c ++ d]) (t ++ d) :=
  glues_extend_last_aux h ls c d rfl

/-- Appending one word to a space-joined word list. -/
theorem intercalateSp_concat (done : List (List Char)) (w : List Char) :
    intercalateSp (done ++ [w]) =
      if done = [] then w else intercalateSp done ++ ' ' :: w := by
  induction done with
  | nil => rfl
  | cons a t ih =>
    cases t with
    | nil => simp [intercalateSp]
    | cons b t2 =>
      rw [if_neg (by simp)] at ih ⊢
      rw [show intercalateSp ((a :: b :: t2) ++ [w]) =
            a ++ ' ' :: intercalateSp ((b :: t2) ++ [w]) from rfl, ih]
      rw [show intercalateSp (a :: b :: t2) =
            a ++ ' ' :: intercalateSp (b :: t2) from rfl]
      simp [List.append_assoc]



/-- Starting a fresh current line with a word preserves the
reconstruction invariant. -/
theorem wrap_newcur_glue (done L : List (List Char)) (w : List Char)
    (hGL : (done = [] ∧ L = []) ∨
      (done ≠ [] ∧ Glues L (intercalateSp done))) :
    Glues (L ++ [w]) (intercalateSp (done ++ [w])) := by
  rw [intercalateSp_concat]
  rcases hGL with ⟨rfl, rfl⟩ | ⟨hd, hg⟩
  · rw [if_pos rfl]; exact Glues.one w
  · rw [if_neg hd]; exact glues_append_space hg (Glues.one w)

/-- Hard-splitting an over-long word preserves the reconstruction
invariant, whether or not a remainder is left in the current line. -/
theorem wrap_split_glue (W : Int) (hW : 1 ≤ W) (done L : List (List Char))
    (w : List Char) (hC2 : W < (w.length : Int))
    (hGL : (done = [] ∧ L = []) ∨
      (done ≠ [] ∧ Glues L (intercalateSp done))) :
    ((hardSplit w W).2 ≠ [] →
      Glues (L ++ (hardSplit w W).1 ++ [(hardSplit w W).2])
        (intercalateSp (done ++ [w])))
    ∧ ((hardSplit w W).2 = [] →
        L ++ (hardSplit w W).1 ≠ []
        ∧ Glues (L ++ (hardSplit w W).1) (intercalateSp (done ++ [w]))) := by
  obtain ⟨hs1, hs2, hs3⟩ := hardSplit_spec w W (by omega)
  have hne : (hardSplit w W).1 ≠ [] := hardSplit_ne_nil hC2 (by omega)
  rw [intercalateSp_concat]
  constructor
  · intro hrest
    have htight : Glues ((hardSplit w W).1 ++ [(hardSplit w W).2])
        (((hardSplit w W).1 ++ [(hardSplit w W).2]).flatten) :=
      tight_glues _ (by simp)
    have hfl : (((hardSplit w W).1 ++ [(hardSplit w W).2]).flatten) = w := by
      rw [List.flatten_append]
      simpa using hs3
    rw [hfl] at htight
    rcases hGL with ⟨rfl, rfl⟩ | ⟨hd, hg⟩
    · rw [if_pos rfl]; simpa using htight
    · rw [if_neg hd]
      have := glues_append_space hg htight
      simpa [List.append_assoc] using this
  · intro hrest
    have htight : Glues ((hardSplit w W).1) ((hardSplit w W).1.flatten) :=
      tight_glues _ hne
    have hfl : ((hardSplit w W).1.flatten) = w := by
      rw [hrest] at hs3
      simpa using hs3
    rw [hfl] at htight
    refine ⟨by simp [hne], ?_⟩
    rcases hGL with ⟨rfl, rfl⟩ | ⟨hd, hg⟩
    · rw [if_pos rfl]; simpa using htight
    · rw [if_neg hd]
      exact glues_append_space hg htight



/-- One step of the word loop of `wrapText` preserves the line-length
bound and the reconstruction invariant. -/
theorem wrapStep_inv (W : Int) (hW : 1 ≤ W) (done lines : List (List Char))
    (cur w : List Char) (hw : w ≠ [])
    (hlines : ∀ l ∈ lines, (l.length : Int) ≤ W)
    (hcur : (cur.length : Int) ≤ W)
    (hinv : (done = [] ∧ lines = [] ∧ cur = []) ∨
      (done ≠ [] ∧
        (cur ≠ [] → Glues (lines ++ [cur]) (intercalateSp done)) ∧
        (cur = [] → lines ≠ [] ∧ Glues lines (intercalateSp done)))) :
    (∀ l ∈ (wrapStep W (lines, cur) w).1, (l.length : Int) ≤ W)
    ∧ ((wrapStep W (lines, cur) w).2.length : Int) ≤ W
    ∧ ((done ++ [w] = [] ∧ (wrapStep W (lines, cur) w).1 = []
          ∧ (wrapStep W (lines, cur) w).2 = [])
        ∨ (done ++ [w] ≠ []
          ∧ ((wrapStep W (lines, cur) w).2 ≠ [] →
              Glues ((wrapStep W (lines, cur) w).1
                  ++ [(wrapStep W (lines, cur) w).2])
                (intercalateSp (done ++ [w])))
          ∧ ((wrapStep W (lines, cur) w).2 = [] →
              (wrapStep W (lines, cur) w).1 ≠ []
              ∧ Glues (wrapStep W (lines, cur) w).1
                  (intercalateSp (done ++ [w]))))) := by
  have hdw : done ++ [w] ≠ [] := by simp
  -- the flushed-line facts, shared by the overflow branches
  by_cases hC1 : (cur.length : Int) + (w.length : Int) + 1 > W
  · -- overflow branch
    have hflushL : ∀ L : List (List Char),
        (cur.length > 0 → L = lines ++ [cur]) →
        (¬ cur.length > 0 → L = lines) →
        (∀ l ∈ L, (l.length : Int) ≤ W)
        ∧ ((done = [] ∧ L = []) ∨
            (done ≠ [] ∧ Glues L (intercalateSp done))) := by
      intro L hpos hzero
      by_cases hcn : cur.length > 0
      · have hcur_ne : cur ≠ [] := by
          intro h; rw [h] at hcn; simp at hcn
        rw [hpos hcn]
        rcases hinv with ⟨-, -, hC⟩ | ⟨hd, h1, -⟩
        · exact absurd hC hcur_ne
        · exact ⟨by
            intro l hl
            rcases List.mem_append.1 hl with hl | hl
            · exact hlines l hl
            · rw [List.mem_singleton.1 hl]; exact hcur,
            Or.inr ⟨hd, h1 hcur_ne⟩⟩
      · have hcur_nil : cur = [] := by
          rcases List.eq_nil_or_concat cur with h | ⟨a, b, rfl⟩
          · exact h
          · exfalso; apply hcn; simp
        rw [hzero hcn]
        rcases hinv with ⟨hd, hl, -⟩ | ⟨hd, -, h2⟩
        · exact ⟨by rw [hl]; simp, Or.inl ⟨hd, hl⟩⟩
        · exact ⟨hlines, Or.inr ⟨hd, (h2 hcur_nil).2⟩⟩
    by_cases hcn : cur.length > 0
    · obtain ⟨hL, hGL⟩ := hflushL (lines ++ [cur]) (fun _ => rfl)
        (fun h => absurd hcn h)
      by_cases hC2 : (w.length : Int) > W
      · have hst : wrapStep W (lines, cur) w =
            ((lines ++ [cur]) ++ (hardSplit w W).1,
              [] ++ (hardSplit w W).2) := by
          simp [wrapStep, hC1, hcn, hC2]
        obtain ⟨hs1, hs2, -⟩ := hardSplit_spec w W (by omega)
        obtain ⟨hg1, hg2⟩ := wrap_split_glue W hW done (lines ++ [cur]) w
          hC2 hGL
        rw [hst]
        refine ⟨?_, by simpa using hs2, Or.inr ⟨hdw, ?_, ?_⟩⟩
        · intro l hl
          rcases List.mem_append.1 hl with hl | hl
          · exact hL l hl
          · rw [hs1 l hl]
        · intro hrest
          simp only [List.nil_append] at hrest ⊢
          exact hg1 hrest
        · intro hrest
          simp only [List.nil_append] at hrest ⊢
          exact hg2 hrest
      · have hst : wrapStep W (lines, cur) w =
            (lines ++ [cur], [] ++ w) := by
          simp [wrapStep, hC1, hcn, hC2]
        rw [hst]
        refine ⟨hL, by simpa using by omega, Or.inr ⟨hdw, ?_, ?_⟩⟩
        · intro _
          simp only [List.nil_append]
          exact wrap_newcur_glue done (lines ++ [cur]) w hGL
        · intro hrest
          exact absurd (by simpa using hrest) hw
    · obtain ⟨hL, hGL⟩ := hflushL lines (fun h => absurd h hcn)
        (fun _ => rfl)
      have hcur_nil : cur = [] := by
        rcases List.eq_nil_or_concat cur with h | ⟨a, b, rfl⟩
        · exact h
        · exfalso; apply hcn; simp
      by_cases hC2 : (w.length : Int) > W
      · have hst : wrapStep W (lines, cur) w =
            (lines ++ (hardSplit w W).1, cur ++ (hardSplit w W).2) := by
          simp [wrapStep, hC1, hcn, hC2]
        obtain ⟨hs1, hs2, -⟩ := hardSplit_spec w W (by omega)
        obtain ⟨hg1, hg2⟩ := wrap_split_glue W hW done lines w hC2 hGL
        rw [hst, hcur_nil]
        refine ⟨?_, by simpa using hs2, Or.inr ⟨hdw, ?_, ?_⟩⟩
        · intro l hl
          rcases List.mem_append.1 hl with hl | hl
          · exact hL l hl
          · rw [hs1 l hl]
        · intro hrest
          simp only [List.nil_append] at hrest ⊢
          exact hg1 hrest
        · intro hrest
          simp only [List.nil_append] at hrest ⊢
          exact hg2 hrest
      · have hst : wrapStep W (lines, cur) w = (lines, cur ++ w) := by
          simp [wrapStep, hC1, hcn, hC2]
        rw [hst, hcur_nil]
        refine ⟨hL, by simpa using by omega, Or.inr ⟨hdw, ?_, ?_⟩⟩
        · intro _
          simp only [List.nil_append]
          exact wrap_newcur_glue done lines w hGL
        · intro hrest
          exact absurd (by simpa using hrest) hw
  · -- the word fits
    by_cases hcn : cur.length > 0
    · have hcur_ne : cur ≠ [] := by
        intro h; rw [h] at hcn; simp at hcn
      have hst : wrapStep W (lines, cur) w = (lines, cur ++ ' ' :: w) := by
        simp [wrapStep, hC1, hcn]
      rw [hst]
      rcases hinv with ⟨-, -, hC⟩ | ⟨hd, h1, -⟩
      · exact absurd hC hcur_ne
      refine ⟨hlines, by simp; omega, Or.inr ⟨hdw, ?_, ?_⟩⟩
      · intro _
        rw [intercalateSp_concat, if_neg hd]
        exact glues_extend_last (h1 hcur_ne) (' ' :: w)
      · intro hrest
        simp at hrest
    · have hcur_nil : cur = [] := by
        rcases List.eq_nil_or_concat cur with h | ⟨a, b, rfl⟩
        · exact h
        · exfalso; apply hcn; simp
      have hst : wrapStep W (lines, cur) w = (lines, cur ++ w) := by
        simp [wrapStep, hC1, hcn]
      rw [hst, hcur_nil]
      have hGL : (done = [] ∧ lines = []) ∨
          (done ≠ [] ∧ Glues lines (intercalateSp done)) := by
        rcases hinv with ⟨hd, hl, -⟩ | ⟨hd, -, h2⟩
        · exact Or.inl ⟨hd, hl⟩
        · exact Or.inr ⟨hd, (h2 hcur_nil).2⟩
      refine ⟨hlines, by simp; rw [hcur_nil] at hC1; simp at hC1; omega,
        Or.inr ⟨hdw, ?_, ?_⟩⟩
      · intro _
        simp only [List.nil_append]
        exact wrap_newcur_glue done lines w hGL
      · intro hrest
        exact absurd (by simpa using hrest) hw



/-- The whole word loop of `wrapText` preserves the line-length bound and
the reconstruction invariant. -/
theorem wrap_fold_inv (W : Int) (hW : 1 ≤ W) :
    ∀ (ws done lines : List (List Char)) (cur : List Char),
      (∀ x ∈ ws, x ≠ []) →
      (∀ l ∈ lines, (l.length : Int) ≤ W) →
      ((cur.length : Int) ≤ W) →
      ((done = [] ∧ lines = [] ∧ cur = []) ∨
        (done ≠ [] ∧
          (cur ≠ [] → Glues (lines ++ [cur]) (intercalateSp done)) ∧
          (cur = [] → lines ≠ [] ∧ Glues lines (intercalateSp done)))) →
      (∀ l ∈ (ws.foldl (wrapStep W) (lines, cur)).1, (l.length : Int) ≤ W)
      ∧ (((ws.foldl (wrapStep W) (lines, cur)).2.length : Int) ≤ W)
      ∧ ((done ++ ws = [] ∧ (ws.foldl (wrapStep W) (lines, cur)).1 = []
            ∧ (ws.foldl (wrapStep W) (lines, cur)).2 = [])
          ∨ (done ++ ws ≠ []
            ∧ ((ws.foldl (wrapStep W) (lines, cur)).2 ≠ [] →
                Glues ((ws.foldl (wrapStep W) (lines, cur)).1
                    ++ [(ws.foldl (wrapStep W) (lines, cur)).2])
                  (intercalateSp (done ++ ws)))
            ∧ ((ws.foldl (wrapStep W) (lines, cur)).2 = [] →
                (ws.foldl (wrapStep W) (lines, cur)).1 ≠ []
                ∧ Glues (ws.foldl (wrapStep W) (lines, cur)).1
                    (intercalateSp (done ++ ws))))) := by
  intro ws
  induction ws with
  | nil =>
    intro done lines cur hws hlines hcur hinv
    simp only [List.foldl_nil, List.append_nil]
    exact ⟨hlines, hcur, hinv⟩
  | cons w ws ih =>
    intro done lines cur hws hlines hcur hinv
    obtain ⟨h1, h2, h3⟩ := wrapStep_inv W hW done lines cur w
      (hws w (by simp)) hlines hcur hinv
    have hmain := ih (done ++ [w]) (wrapStep W (lines, cur) w).1
      (wrapStep W (lines, cur) w).2 (fun x hx => hws x (by simp [hx]))
      h1 h2 h3
    simpa [List.foldl_cons, List.append_assoc] using hmain

/-- Every field produced by the splitter is non-empty. -/
theorem fieldsAux_mem_ne_nil :
    ∀ (l acc w : List Char), w ∈ fieldsAux l acc → w ≠ [] := by
  intro l
  induction l with
  | nil =>
    intro acc w hw
    by_cases ha : acc = []
    · simp [fieldsAux, ha] at hw
    · simp only [fieldsAux, if_neg ha, List.mem_singleton] at hw
      subst hw
      simpa using ha
  | cons c t ih =>
    intro acc w hw
    by_cases hs : goIsSpace c
    · by_cases ha : acc = []
      · rw [fieldsAux, if_pos hs, if_pos ha] at hw
        exact ih [] w hw
      · rw [fieldsAux, if_pos hs, if_neg ha] at hw
        rcases List.mem_cons.1 hw with rfl | hw
        · simpa using ha
        · exact ih [] w hw
    · rw [fieldsAux, if_neg hs] at hw
      exact ih (c :: acc) w hw

/-- Every word of `sFields` is non-empty. -/
theorem sFields_mem_ne_nil {l w : List Char} (h : w ∈ sFields l) : w ≠ [] :=
  fieldsAux_mem_ne_nil l [] w h



/-- C8 amended: for a positive width, every line produced by `wrapText`
has length at most the width whenever the text has any word at all (a
word longer than the width is hard-split into full-width chunks); a text
no longer than the width, or one without words, is returned verbatim as a
single line — in particular an all-whitespace text longer than the width
yields one over-long line; and when wrapping actually runs, reinserting a
single space or nothing between consecutive wrapped lines reconstructs
exactly the whitespace-normalized text (the words joined by single
spaces). -/
theorem c8_amended :
    (∀ (text : List Char) (W : Int), 1 ≤ W →
      ((text.length : Int) ≤ W ∨ sFields text ≠ []) →
      ∀ l ∈ wrapText text W, (l.length : Int) ≤ W)
    ∧ (∀ (text : List Char) (W : Int),
        ((text.length : Int) ≤ W ∨ sFields text = []) →
        wrapText text W = [text])
    ∧ (∀ (text : List Char) (W : Int), 1 ≤ W → W < (text.length : Int) →
        sFields text ≠ [] →
        Glues (wrapText text W) (intercalateSp (sFields text))) := by
  refine ⟨?_, ?_, ?_⟩
  · intro text W hW hor l hl
    by_cases hlen : (text.length : Int) ≤ W
    · rw [wrapText, if_pos hlen] at hl
      rw [List.mem_singleton.1 hl]
      exact hlen
    · by_cases hf : sFields text = []
      · rcases hor with hor | hor
        · exact absurd hor hlen
        · exact absurd hf hor
      · obtain ⟨g1, g2, g3⟩ := wrap_fold_inv W hW (sFields text) [] [] []
          (fun x hx => sFields_mem_ne_nil hx) (by simp) (by simp; omega)
          (Or.inl ⟨rfl, rfl, rfl⟩)
        have hwt : wrapText text W =
            if ((sFields text).foldl (wrapStep W) ([], [])).2.length > 0 then
              ((sFields text).foldl (wrapStep W) ([], [])).1
                ++ [((sFields text).foldl (wrapStep W) ([], [])).2]
            else ((sFields text).foldl (wrapStep W) ([], [])).1 := by
          simp only [wrapText, if_neg hlen, if_neg hf]
        rw [hwt] at hl
        by_cases h2 : ((sFields text).foldl (wrapStep W) ([], [])).2.length > 0
        · rw [if_pos h2] at hl
          rcases List.mem_append.1 hl with hl | hl
          · exact g1 l hl
          · rw [List.mem_singleton.1 hl]
            exact g2
        · rw [if_neg h2] at hl
          exact g1 l hl
  · intro text W hor
    by_cases hlen : (text.length : Int) ≤ W
    · rw [wrapText, if_pos hlen]
    · rcases hor with hor | hor
      · exact absurd hor hlen
      · rw [wrapText, if_neg hlen]
        simp [hor]
  · intro text W hW hlt hf
    obtain ⟨g1, g2, g3⟩ := wrap_fold_inv W hW (sFields text) [] [] []
      (fun x hx => sFields_mem_ne_nil hx) (by simp) (by simp; omega)
      (Or.inl ⟨rfl, rfl, rfl⟩)
    rcases g3 with ⟨hnil, -⟩ | ⟨-, hg2, hg3⟩
    · exact absurd (by simpa using hnil) hf
    have hwt : wrapText text W =
        if ((sFields text).foldl (wrapStep W) ([], [])).2.length > 0 then
          ((sFields text).foldl (wrapStep W) ([], [])).1
            ++ [((sFields text).foldl (wrapStep W) ([], [])).2]
        else ((sFields text).foldl (wrapStep W) ([], [])).1 := by
      simp only [wrapText, if_neg (by omega : ¬ (text.length : Int) ≤ W),
        if_neg hf]
    rw [hwt]
    by_cases h2 : ((sFields text).foldl (wrapStep W) ([], [])).2.length > 0
    · rw [if_pos h2]
      have : ((sFields text).foldl (wrapStep W) ([], [])).2 ≠ [] := by
        intro h; rw [h] at h2; simp at h2
      simpa using hg2 this
    · rw [if_neg h2]
      have : ((sFields text).foldl (wrapStep W) ([], [])).2 = [] := by
        rcases List.eq_nil_or_concat
            ((sFields text).foldl (wrapStep W) ([], [])).2 with h | ⟨a, b, h⟩
        · exact h
        · exfalso; apply h2; rw [h]; simp
      simpa using (hg3 this).2

/-- C8 counterexample: four spaces wrapped at width 3 come back as one
line of length 4, exceeding the width although no word exceeds it (there
are no words), refuting the claimed length bound and reconstruction. -/
theorem c8_counterexample :
    wrapText "    ".data 3 = ["    ".data]
    ∧ (∃ l ∈ wrapText "    ".data 3, ¬ ((l.length : Int) ≤ 3))
    ∧ (∀ w ∈ sFields "    ".data, (w.length : Int) ≤ 3) := by
  refine ⟨by decide, ⟨"    ".data, by decide, by decide⟩, by decide⟩

/-- C8 witness: the amended theorem applied at width 5 to a three-word
text and to a short text. -/
theorem c8_amended_witness :
    ((1 : Int) ≤ 5
      ∧ ((("hello world wide".data.length : Int)) ≤ 5
          ∨ sFields "hello world wide".data ≠ []))
    ∧ (∀ l ∈ wrapText "hello world wide".data 5, (l.length : Int) ≤ 5)
    ∧ wrapText "ab".data 5 = ["ab".data]
    ∧ Glues (wrapText "hello world wide".data 5)
        (intercalateSp (sFields "hello world wide".data)) :=
  ⟨⟨by decide, by decide⟩,
   c8_amended.1 ("hello world wide".data) 5 (by decide) (by decide),
   c8_amended.2.1 ("ab".data) 5 (Or.inl (by decide)),
   c8_amended.2.2 ("hello world wide".data) 5 (by decide) (by decide)
     (by decide)⟩


end UnoLogs
